import Mathlib

/-!
Verification of the path-normalization module src/filesystem/path-utils.ts.

Strings are modelled as List Char (one element per UTF-16-visible character
of the JavaScript string; all inputs of interest are within the BMP, where
this agrees with the JavaScript model).  Each exported function of the
module is translated into a pure Lean function over List Char.

Platform: the module reads Node's `path` module and `process.platform`.
The running platform is modelled as win32 (the module's purpose is Windows
path handling, and the UNC fix-up step in normalizePath is only reachable
under the win32 variant of path.normalize).  Node's path.win32.normalize is
modelled by win32Normalize below, following the algorithm of Node's
lib/path.js (root parsing + normalizeString on the remainder).

The WHATWG URL parser invoked by fileUriToPath (`new URL`) is beyond a
shallow embedding; fileUriToPath is therefore parameterized by an arbitrary
partial pathname-extraction function, exactly as the spec's claim C8 asks
("URL parsing ... modeled as partial/Except-valued functions").
decodeURIComponent is modelled concretely (percent-decode plus strict UTF-8
validation, failure as none).
-/

namespace PathUtils

/-- Whitespace characters removed by String.prototype.trim (the ASCII ones
plus the common Unicode space characters). -/
def isJsWhitespace (c : Char) : Bool :=
  c = ' ' || c = '\t' || c = '\n' || c = '\r' ||
  c = Char.ofNat 11 || c = Char.ofNat 12 || c = Char.ofNat 160 ||
  c = Char.ofNat 0x1680 || (Char.ofNat 0x2000 ≤ c && c ≤ Char.ofNat 0x200A) ||
  c = Char.ofNat 0x2028 || c = Char.ofNat 0x2029 || c = Char.ofNat 0x202F ||
  c = Char.ofNat 0x205F || c = Char.ofNat 0x3000 || c = Char.ofNat 0xFEFF

/-- Quote characters stripped by normalizePath: double quote or single quote
(code point 39). -/
def isQuoteChar (c : Char) : Bool :=
  c = '"' || c = Char.ofNat 39

/-- Path separators of Node's win32 path implementation: forward slash or
backslash. -/
def isPathSep (c : Char) : Bool :=
  c = '/' || c = '\\'

/-- ASCII letter, the character class [a-zA-Z]. -/
def isAsciiLetter (c : Char) : Bool :=
  ('a' ≤ c && c ≤ 'z') || ('A' ≤ c && c ≤ 'Z')

/-- ASCII upper-casing of one character, the effect of
String.prototype.toUpperCase on the characters this module feeds it. -/
def asciiUpper (c : Char) : Char :=
  if 'a' ≤ c && c ≤ 'z' then Char.ofNat (c.toNat - 32) else c

/-- ASCII lower-casing of one character, used to model the i flag of the
regular expressions in the source. -/
def asciiLower (c : Char) : Char :=
  if 'A' ≤ c && c ≤ 'Z' then Char.ofNat (c.toNat + 32) else c

/-- Hexadecimal digit, the character class [0-9A-Fa-f]. -/
def isHexDigit (c : Char) : Bool :=
  ('0' ≤ c && c ≤ '9') || ('a' ≤ c && c ≤ 'f') || ('A' ≤ c && c ≤ 'F')

/-- Numeric value of a hexadecimal digit. -/
def hexVal (c : Char) : Nat :=
  if '0' ≤ c && c ≤ '9' then c.toNat - 48
  else if 'a' ≤ c && c ≤ 'f' then c.toNat - 87
  else if 'A' ≤ c && c ≤ 'F' then c.toNat - 55
  else 0

/-- Model of String.prototype.trim: remove leading and trailing JavaScript
whitespace. -/
def jsTrim (l : List Char) : List Char :=
  ((l.dropWhile isJsWhitespace).reverse.dropWhile isJsWhitespace).reverse

/-- Removal of one leading quote character when present. -/
def stripLeadQuote : List Char → List Char
  | c :: rest => if isQuoteChar c then rest else c :: rest
  | [] => []

/-- Removal of one trailing quote character when present. -/
def stripTrailQuote (l : List Char) : List Char :=
  match l.getLast? with
  | some c => if isQuoteChar c then l.dropLast else l
  | none => l

/-- Model of the replace of the anchored global regex stripping quotes in
normalizePath line 40: the global alternation removes a leading quote when
present and a trailing quote when present, each independently of the
other. -/
def stripQuotes (l : List Char) : List Char :=
  stripTrailQuote (stripLeadQuote l)

/-- Trimmed and unquoted form of the input, the first stage of
normalizePath. -/
def stripOuter (l : List Char) : List Char :=
  stripQuotes (jsTrim l)

/-- Model of the global replace of a slash by a backslash. -/
def slashesToBackslashes (l : List Char) : List Char :=
  l.map (fun c => if c = '/' then '\\' else c)

/-- Model of the global replace collapsing each run of slashes to one slash
(normalizePath line 50). -/
def collapseSlashes : List Char → List Char
  | [] => []
  | [c] => [c]
  | a :: b :: rest =>
    if a = '/' && b = '/' then collapseSlashes (b :: rest)
    else a :: collapseSlashes (b :: rest)

/-- Model of the replace deleting a trailing run of slashes
(normalizePath line 50). -/
def stripTrailingSlashes (l : List Char) : List Char :=
  (l.reverse.dropWhile (fun c => c = '/')).reverse

/-- Model of the global replace of a doubled backslash by a single
backslash: non-overlapping pairs, scanned left to right. -/
def collapseDoubleBS : List Char → List Char
  | [] => []
  | [c] => [c]
  | a :: b :: rest =>
    if a = '\\' && b = '\\' then '\\' :: collapseDoubleBS rest
    else a :: collapseDoubleBS (b :: rest)

/-- The five characters of the prefix tested by startsWith in
convertToWindowsPath line 11. -/
def mntPrefix : List Char := ['/', 'm', 'n', 't', '/']

/-- Test of the case-insensitive WSL-mount prefix regex of normalizePath
line 44: a slash, the letters m n t in either case, a slash, an ASCII
letter, a slash. -/
def matchWSLMount : List Char → Bool
  | c0 :: c1 :: c2 :: c3 :: c4 :: c5 :: c6 :: _ =>
    c0 = '/' && asciiLower c1 = 'm' && asciiLower c2 = 'n' && asciiLower c3 = 't' &&
    c4 = '/' && isAsciiLetter c5 && c6 = '/'
  | _ => false

/-- Test of the single-letter-drive prefix regex of normalizePath line 45
and convertToWindowsPath line 18: slash, ASCII letter, slash. -/
def matchSlashLetterSlash : List Char → Bool
  | c0 :: c1 :: c2 :: _ => c0 = '/' && isAsciiLetter c1 && c2 = '/'
  | _ => false

/-- Test of the drive prefix regex: an ASCII letter followed by a colon. -/
def matchDriveRel : List Char → Bool
  | c0 :: c1 :: _ => isAsciiLetter c0 && c1 = ':'
  | _ => false

/-- Test of the lower-case drive prefix regex of normalizePath line 83. -/
def matchLowerDrive : List Char → Bool
  | c0 :: c1 :: _ => ('a' ≤ c0 && c0 ≤ 'z') && c1 = ':'
  | _ => false

/-- Starts with two backslashes, the startsWith test on UNC paths. -/
def twoBS : List Char → Bool
  | c0 :: c1 :: _ => c0 = '\\' && c1 = '\\'
  | _ => false

/-- Unix-path classification of normalizePath lines 43-45: starts with a
slash and matches neither the WSL-mount pattern nor the
single-letter-drive pattern. -/
def isUnixPath (l : List Char) : Bool :=
  (match l with | c :: _ => c = '/' | [] => false) &&
  !(matchWSLMount l) && !(matchSlashLetterSlash l)

/-- Translation of convertToWindowsPath (path-utils.ts lines 9-31).  Note
the first branch fires on every input that merely starts with the five
characters of mntPrefix; charAt(5) of such an input is its sixth character
when present and the empty string otherwise. -/
def convertToWindowsPath (p : List Char) : List Char :=
  if mntPrefix.isPrefixOf p then
    match p.drop 5 with
    | c :: restAfter => asciiUpper c :: ':' :: slashesToBackslashes restAfter
    | [] => [':']
  else if matchSlashLetterSlash p then
    match p with
    | _ :: c :: rest => asciiUpper c :: ':' :: slashesToBackslashes rest
    | _ => p
  else if matchDriveRel p then slashesToBackslashes p
  else p

/-- Auxiliary splitter: cut a character list at the path separators,
keeping the (possibly empty) chunks between them.  cur holds the current
chunk in reverse. -/
def segsAux : List Char → List Char → List (List Char)
  | [], cur => [cur.reverse]
  | c :: rest, cur =>
    if isPathSep c then cur.reverse :: segsAux rest [] else segsAux rest (c :: cur)

/-- The chunks of a path between its separators. -/
def segments (l : List Char) : List (List Char) := segsAux l []

/-- The two-character parent segment. -/
def dotdot : List Char := ['.', '.']

/-- One step of Node's normalizeString: empty and dot segments are
dropped, a dotdot segment pops the last kept segment unless the stack is
empty or already ends in dotdot (in which case a dotdot survives only when
allowAbove holds), every other segment is kept. -/
def stepSeg (allowAbove : Bool) (stack : List (List Char)) (seg : List Char) : List (List Char) :=
  if seg = [] || seg = ['.'] then stack
  else if seg = dotdot then
    match stack with
    | [] => if allowAbove then [dotdot] else []
    | top :: rest =>
      if top = dotdot then (if allowAbove then dotdot :: top :: rest else top :: rest)
      else rest
  else seg :: stack

/-- Join segments with single backslashes. -/
def joinSegs : List (List Char) → List Char
  | [] => []
  | [s] => s
  | s :: rest => s ++ '\\' :: joinSegs rest

/-- Model of Node's normalizeString with backslash as the output
separator: resolve dot and dotdot segments and redundant separators. -/
def normalizeStringW (l : List Char) (allowAbove : Bool) : List Char :=
  joinSegs (((segments l).foldl (stepSeg allowAbove) []).reverse)

/-- Whether the last character of the list is a path separator. -/
def lastCharIsSep (l : List Char) : Bool :=
  match l.getLast? with
  | some c => isPathSep c
  | none => false

/-- Tail construction of Node's win32 normalize, first step: an empty tail
of a relative path becomes a single dot. -/
def finTail1 (isAbs : Bool) (afterRoot : List Char) : List Char :=
  if (normalizeStringW afterRoot (!isAbs)).isEmpty && !isAbs then ['.']
  else normalizeStringW afterRoot (!isAbs)

/-- Tail construction, second step: a nonempty tail regains a trailing
backslash when the input ended in a separator. -/
def finTail2 (isAbs : Bool) (afterRoot : List Char) (lastSep : Bool) : List Char :=
  if !(finTail1 isAbs afterRoot).isEmpty && lastSep then finTail1 isAbs afterRoot ++ ['\\']
  else finTail1 isAbs afterRoot

/-- Assembly of Node's win32 normalize result from the parsed root
(device, absoluteness) and the normalized tail. -/
def finishW (device : Option (List Char)) (isAbs : Bool) (afterRoot : List Char) (lastSep : Bool) : List Char :=
  match device with
  | none =>
    if isAbs then '\\' :: finTail2 isAbs afterRoot lastSep
    else finTail2 isAbs afterRoot lastSep
  | some d =>
    if isAbs then d ++ '\\' :: finTail2 isAbs afterRoot lastSep
    else d ++ finTail2 isAbs afterRoot lastSep

/-- Complement of isPathSep, for the UNC root scans. -/
def notSep (c : Char) : Bool := !(isPathSep c)

/-- First non-separator run after the two leading separators of a UNC
candidate. -/
def uncFirst (v : List Char) : List Char := v.takeWhile notSep

/-- Remainder after that first run. -/
def uncAfterFirst (v : List Char) : List Char := v.dropWhile notSep

/-- Remainder after the separator run following the first part. -/
def uncR2 (v : List Char) : List Char := (uncAfterFirst v).dropWhile isPathSep

/-- Second non-separator run of a UNC candidate. -/
def uncSecond (v : List Char) : List Char := (uncR2 v).takeWhile notSep

/-- Remainder after the second run. -/
def uncR3 (v : List Char) : List Char := (uncR2 v).dropWhile notSep

/-- Model of Node's path.win32.normalize, following lib/path.js: empty
input gives a dot, a single posix separator gives a backslash, otherwise
the root (UNC, single separator, or drive) is parsed and normalizeString
is applied to the remainder.  A UNC root with nothing after it is returned
early with a trailing backslash. -/
def win32Normalize (p : List Char) : List Char :=
  match p with
  | [] => ['.']
  | [c] => if c = '/' then ['\\'] else [c]
  | c0 :: c1 :: rest2 =>
    if isPathSep c0 then
      if isPathSep c1 then
        if (uncFirst rest2).isEmpty || (uncAfterFirst rest2).isEmpty then
          finishW none true (c0 :: c1 :: rest2) (lastCharIsSep (c0 :: c1 :: rest2))
        else if (uncR2 rest2).isEmpty then
          finishW none true (c0 :: c1 :: rest2) (lastCharIsSep (c0 :: c1 :: rest2))
        else if (uncR3 rest2).isEmpty then
          '\\' :: '\\' :: (uncFirst rest2 ++ '\\' :: (uncSecond rest2 ++ ['\\']))
        else
          finishW (some ('\\' :: '\\' :: (uncFirst rest2 ++ '\\' :: uncSecond rest2))) true
            (uncR3 rest2) (lastCharIsSep (c0 :: c1 :: rest2))
      else
        finishW none true (c1 :: rest2) (lastCharIsSep (c0 :: c1 :: rest2))
    else if isAsciiLetter c0 && c1 = ':' then
      match rest2 with
      | c2 :: rest3 =>
        if isPathSep c2 then
          finishW (some [c0, ':']) true rest3 (lastCharIsSep (c0 :: c1 :: rest2))
        else
          finishW (some [c0, ':']) false rest2 (lastCharIsSep (c0 :: c1 :: rest2))
      | [] => finishW (some [c0, ':']) false [] (lastCharIsSep (c0 :: c1 :: rest2))
    else
      finishW none false (c0 :: c1 :: rest2) (lastCharIsSep (c0 :: c1 :: rest2))

/-- Stage 4 of normalizePath (lines 57-69): reduce a leading run of two or
more backslashes to exactly two and collapse doubled backslashes in the
remainder; collapse doubled backslashes everywhere otherwise. -/
def uncCollapse (p1 : List Char) : List Char :=
  if twoBS p1 then '\\' :: '\\' :: collapseDoubleBS (p1.dropWhile (fun c => c = '\\'))
  else collapseDoubleBS p1

/-- Stage 5 fix-up of normalizePath (lines 75-77): restore the second
leading backslash of a UNC path that path.normalize reduced. -/
def fixUNC (p2 n0 : List Char) : List Char :=
  if twoBS p2 && !(twoBS n0) then '\\' :: n0 else n0

/-- Stages 6-7 of normalizePath (lines 80-91): slash direction and drive
letter capitalization on a drive path, slash direction alone otherwise. -/
def driveFinish (n1 : List Char) : List Char :=
  if matchDriveRel n1 then
    if matchLowerDrive (slashesToBackslashes n1) then
      match slashesToBackslashes n1 with
      | c :: rest => asciiUpper c :: rest
      | [] => []
    else slashesToBackslashes n1
  else slashesToBackslashes n1

/-- The non-Unix pipeline of normalizePath after drive conversion. -/
def normalizePathWin (p1 : List Char) : List Char :=
  driveFinish (fixUNC (uncCollapse p1) (win32Normalize (uncCollapse p1)))

/-- Translation of normalizePath (path-utils.ts lines 38-92), with
path.normalize modelled by win32Normalize. -/
def normalizePath (s : List Char) : List Char :=
  if isUnixPath (stripOuter s) then stripTrailingSlashes (collapseSlashes (stripOuter s))
  else normalizePathWin (convertToWindowsPath (stripOuter s))

/-- The five characters of the scheme prefix tested by startsWith in
fileUriToPath and decodePossibleFileUri. -/
def filePrefix : List Char := ['f', 'i', 'l', 'e', ':']

/-- The seven characters matched case-insensitively by the fallback strip
in fileUriToPath line 126. -/
def fileSlashSlash : List Char := ['f', 'i', 'l', 'e', ':', '/', '/']

/-- Test of the percent-escape regex of decodePossibleFileUri line 139: a
percent sign followed by two hexadecimal digits, anywhere in the string. -/
def hasPctSeq : List Char → Bool
  | [] => false
  | c :: rest =>
    (c = '%' && (match rest with
      | h1 :: h2 :: _ => isHexDigit h1 && isHexDigit h2
      | _ => false)) || hasPctSeq rest

/-- First pass of decodeURIComponent: each percent escape becomes a byte
(inr), every other character passes through (inl); a percent sign not
followed by two hexadecimal digits is an error. -/
def pctTokens : List Char → Option (List (Char ⊕ Nat))
  | [] => some []
  | '%' :: rest =>
    match rest with
    | h1 :: h2 :: r =>
      if isHexDigit h1 && isHexDigit h2 then
        (pctTokens r).map (fun t => Sum.inr (hexVal h1 * 16 + hexVal h2) :: t)
      else none
    | _ => none
  | c :: rest => (pctTokens rest).map (fun t => Sum.inl c :: t)

/-- Continuation byte of a UTF-8 sequence. -/
def contByte (b : Nat) : Bool := 0x80 ≤ b && b ≤ 0xBF

/-- Second pass of decodeURIComponent: decoded byte runs must form valid
UTF-8 scalar values (continuation bytes immediately following their lead
byte, no overlong forms, no surrogates, at most U+10FFFF). -/
def utf8Assemble : List (Char ⊕ Nat) → Option (List Char)
  | [] => some []
  | .inl c :: rest => (utf8Assemble rest).map (fun t => c :: t)
  | .inr b :: rest =>
    if b < 0x80 then (utf8Assemble rest).map (fun t => Char.ofNat b :: t)
    else if 0xC2 ≤ b && b ≤ 0xDF then
      match rest with
      | .inr b1 :: r =>
        if contByte b1 then
          (utf8Assemble r).map (fun t => Char.ofNat ((b - 0xC0) * 64 + (b1 - 0x80)) :: t)
        else none
      | _ => none
    else if 0xE0 ≤ b && b ≤ 0xEF then
      match rest with
      | .inr b1 :: .inr b2 :: r =>
        if contByte b1 && contByte b2 &&
            decide (0x800 ≤ (b - 0xE0) * 4096 + (b1 - 0x80) * 64 + (b2 - 0x80)) &&
            !(decide (0xD800 ≤ (b - 0xE0) * 4096 + (b1 - 0x80) * 64 + (b2 - 0x80)) &&
              decide ((b - 0xE0) * 4096 + (b1 - 0x80) * 64 + (b2 - 0x80) ≤ 0xDFFF)) then
          (utf8Assemble r).map
            (fun t => Char.ofNat ((b - 0xE0) * 4096 + (b1 - 0x80) * 64 + (b2 - 0x80)) :: t)
        else none
      | _ => none
    else if 0xF0 ≤ b && b ≤ 0xF4 then
      match rest with
      | .inr b1 :: .inr b2 :: .inr b3 :: r =>
        if contByte b1 && contByte b2 && contByte b3 &&
            decide (0x10000 ≤ (b - 0xF0) * 262144 + (b1 - 0x80) * 4096 + (b2 - 0x80) * 64 + (b3 - 0x80)) &&
            decide ((b - 0xF0) * 262144 + (b1 - 0x80) * 4096 + (b2 - 0x80) * 64 + (b3 - 0x80) ≤ 0x10FFFF) then
          (utf8Assemble r).map
            (fun t => Char.ofNat ((b - 0xF0) * 262144 + (b1 - 0x80) * 4096 + (b2 - 0x80) * 64 + (b3 - 0x80)) :: t)
        else none
      | _ => none
    else none

/-- Model of decodeURIComponent: percent-decode with UTF-8 validation,
returning none where the JavaScript function throws URIError. -/
def decodeURIComponentM (l : List Char) : Option (List Char) :=
  (pctTokens l).bind utf8Assemble

/-- Model of the case-insensitive anchored replace stripping one leading
file-slash-slash prefix (fileUriToPath line 126). -/
def stripFileSchemeSlashes (l : List Char) : List Char :=
  if (l.take 7).map asciiLower = fileSlashSlash then l.drop 7 else l

/-- The catch branch of fileUriToPath (lines 122-132): strip the scheme
prefix, attempt a percent-decode, and fall back to the original input when
that decode also fails. -/
def fileUriFallback (uri : List Char) : List Char :=
  match decodeURIComponentM (stripFileSchemeSlashes uri) with
  | some d => d
  | none => uri

/-- Translation of fileUriToPath (path-utils.ts lines 106-133),
parameterized by the pathname extraction of the WHATWG URL parser (none
models a thrown TypeError) and by whether process.platform is win32.
decodeURIComponent failures (none) reach the same catch as parser
failures. -/
def fileUriToPath (parsePathname : List Char → Option (List Char)) (isWin32 : Bool)
    (uri : List Char) : List Char :=
  if filePrefix.isPrefixOf uri then
    match parsePathname uri with
    | some pn =>
      match decodeURIComponentM pn with
      | some p =>
        if isWin32 then
          slashesToBackslashes
            (match p with
             | '/' :: a :: b :: r =>
               if isAsciiLetter a && b = ':' then a :: b :: r else '/' :: a :: b :: r
             | q => q)
        else p
      | none => fileUriFallback uri
    | none => fileUriFallback uri
  else uri

/-- Translation of decodePossibleFileUri (path-utils.ts lines 135-143),
carrying the same parameters as fileUriToPath for its delegation branch. -/
def decodePossibleFileUri (parsePathname : List Char → Option (List Char)) (isWin32 : Bool)
    (p : List Char) : List Char :=
  if filePrefix.isPrefixOf p then fileUriToPath parsePathname isWin32 p
  else if hasPctSeq p then
    match decodeURIComponentM p with
    | some d => d
    | none => p
  else p

/-- Whether the last character is a quote, a decidable hypothesis form. -/
def lastIsQuote (l : List Char) : Bool :=
  match l.getLast? with
  | some c => isQuoteChar c
  | none => false

/-- Whether the first character is a quote. -/
def headIsQuote (l : List Char) : Bool :=
  match l.head? with
  | some c => isQuoteChar c
  | none => false

/-- Whether the last character is JavaScript whitespace. -/
def lastIsJsWs (l : List Char) : Bool :=
  match l.getLast? with
  | some c => isJsWhitespace c
  | none => false

/-- Absence of two adjacent slashes. -/
def noDS : List Char → Bool
  | [] => true
  | [_] => true
  | a :: b :: rest => !(a = '/' && b = '/') && noDS (b :: rest)

/-- Length of the leading run of backslashes. -/
def leadingBSCount (l : List Char) : Nat :=
  (l.takeWhile (fun c => c = '\\')).length

/-! Helper lemmas. -/

theorem dropWhile_eq_self_of_head (p : Char → Bool) (l : List Char)
    (h : ∀ c, l.head? = some c → p c = false) : l.dropWhile p = l := by
  cases l with
  | nil => rfl
  | cons c t => simp [List.dropWhile, h c rfl]

theorem head?_dropWhile_false (p : Char → Bool) (l : List Char) (c : Char)
    (h : (l.dropWhile p).head? = some c) : p c = false := by
  induction l with
  | nil => simp at h
  | cons a t ih =>
    by_cases hp : p a
    · simp [List.dropWhile, hp] at h
      exact ih h
    · simp [List.dropWhile, hp] at h
      subst h
      simpa using hp

theorem dropWhile_idem (p : Char → Bool) (l : List Char) :
    (l.dropWhile p).dropWhile p = l.dropWhile p := by
  apply dropWhile_eq_self_of_head
  intro c hc
  exact head?_dropWhile_false p l c hc

theorem stripTrailing_idem (l : List Char) :
    stripTrailingSlashes (stripTrailingSlashes l) = stripTrailingSlashes l := by
  unfold stripTrailingSlashes
  rw [List.reverse_reverse, dropWhile_idem]

theorem stripTrailing_decomp (l : List Char) :
    ∃ w, l = stripTrailingSlashes l ++ w := by
  have h := List.takeWhile_append_dropWhile (fun c => c = '/') l.reverse
  have h2 := congrArg List.reverse h
  rw [List.reverse_append, List.reverse_reverse] at h2
  exact ⟨_, h2.symm⟩

theorem collapse_head (a : Char) (t : List Char) :
    ∃ t2, collapseSlashes (a :: t) = a :: t2 := by
  induction t generalizing a with
  | nil => exact ⟨[], rfl⟩
  | cons b r ih =>
    by_cases h : (a = '/' && b = '/') = true
    · obtain ⟨t2, ht2⟩ := ih b
      refine ⟨t2, ?_⟩
      rw [show collapseSlashes (a :: b :: r) = collapseSlashes (b :: r) from by
        simp [collapseSlashes, h]]
      rw [ht2]
      simp only [Bool.and_eq_true, decide_eq_true_eq] at h
      rw [h.1, h.2]
    · exact ⟨collapseSlashes (b :: r), by simp [collapseSlashes, h]⟩

theorem collapse_noDS (l : List Char) : noDS (collapseSlashes l) = true := by
  induction l using collapseSlashes.induct with
  | case1 => rfl
  | case2 c => rfl
  | case3 a b rest h ih =>
    rw [show collapseSlashes (a :: b :: rest) = collapseSlashes (b :: rest) from by
      simp [collapseSlashes, h]]
    exact ih
  | case4 a b rest h ih =>
    rw [show collapseSlashes (a :: b :: rest) = a :: collapseSlashes (b :: rest) from by
      simp [collapseSlashes, h]]
    obtain ⟨t2, ht2⟩ := collapse_head b rest
    rw [ht2] at ih ⊢
    show (!(a = '/' && b = '/') && noDS (b :: t2)) = true
    rw [ih, Bool.eq_false_iff.mpr h]
    rfl

theorem noDS_append_left (xs w : List Char) (h : noDS (xs ++ w) = true) :
    noDS xs = true := by
  induction xs with
  | nil => rfl
  | cons a t ih =>
    cases t with
    | nil => rfl
    | cons b r =>
      have h3 : noDS (a :: b :: (r ++ w)) = true := by simpa using h
      have h2 : (!(a = '/' && b = '/') && noDS (b :: (r ++ w))) = true := h3
      rw [Bool.and_eq_true] at h2
      have ihr : noDS (b :: r) = true := ih (by simpa using h2.2)
      show (!(a = '/' && b = '/') && noDS (b :: r)) = true
      rw [Bool.and_eq_true]
      exact ⟨h2.1, ihr⟩

theorem collapse_eq_self_of_noDS (l : List Char) (h : noDS l = true) :
    collapseSlashes l = l := by
  induction l using collapseSlashes.induct with
  | case1 => rfl
  | case2 c => rfl
  | case3 a b rest hc ih =>
    have h2 : (!(a = '/' && b = '/') && noDS (b :: rest)) = true := h
    rw [hc] at h2
    simp at h2
  | case4 a b rest hc ih =>
    have h2 : (!(a = '/' && b = '/') && noDS (b :: rest)) = true := h
    rw [Bool.and_eq_true] at h2
    rw [show collapseSlashes (a :: b :: rest) = a :: collapseSlashes (b :: rest) from by
      simp [collapseSlashes, hc]]
    rw [ih h2.2]

theorem unixPath_head (l : List Char) (h : isUnixPath l = true) :
    ∃ t, l = '/' :: t := by
  cases l with
  | nil => simp [isUnixPath] at h
  | cons c t =>
    refine ⟨t, ?_⟩
    simp only [isUnixPath, Bool.and_eq_true, decide_eq_true_eq] at h
    rw [h.1.1]

theorem stripOuter_eq_self_slash (t : List Char)
    (h3 : lastIsJsWs ('/' :: t) = false) (h4 : lastIsQuote ('/' :: t) = false) :
    stripOuter ('/' :: t) = '/' :: t := by
  have hd1 : List.dropWhile isJsWhitespace ('/' :: t) = '/' :: t := by
    apply dropWhile_eq_self_of_head
    intro c hc
    simp only [List.head?_cons, Option.some.injEq] at hc
    rw [← hc]
    decide
  have hd2 : ('/' :: t).reverse.dropWhile isJsWhitespace = ('/' :: t).reverse := by
    apply dropWhile_eq_self_of_head
    intro c hc
    rw [List.head?_reverse] at hc
    unfold lastIsJsWs at h3
    rw [hc] at h3
    exact h3
  have hjt : jsTrim ('/' :: t) = '/' :: t := by
    unfold jsTrim
    rw [hd1, hd2, List.reverse_reverse]
  unfold stripOuter
  rw [hjt]
  unfold stripQuotes
  show stripTrailQuote (if isQuoteChar '/' = true then t else '/' :: t) = '/' :: t
  rw [if_neg (by decide)]
  unfold stripTrailQuote
  unfold lastIsQuote at h4
  cases hg : ('/' :: t).getLast? with
  | none => rfl
  | some c =>
    rw [hg] at h4
    simp only at h4
    show (if isQuoteChar c = true then ('/' :: t).dropLast else '/' :: t) = '/' :: t
    rw [if_neg (by rw [h4]; exact Bool.false_ne_true)]

theorem isAsciiLetter_ne_slash (c : Char) (h : isAsciiLetter c = true) : c ≠ '/' := by
  intro he
  rw [he] at h
  exact absurd h (by decide)

theorem isAsciiLetter_ne_backslash (c : Char) (h : isAsciiLetter c = true) : c ≠ '\\' := by
  intro he
  rw [he] at h
  exact absurd h (by decide)

theorem matchSLS_false_of_second (c0 c1 : Char) (t : List Char)
    (h : isAsciiLetter c1 = false) : matchSlashLetterSlash (c0 :: c1 :: t) = false := by
  cases t <;> simp [matchSlashLetterSlash, h]

theorem slashesToBackslashes_cons (c : Char) (t : List Char) :
    slashesToBackslashes (c :: t) =
      (if c = '/' then '\\' else c) :: slashesToBackslashes t := rfl

theorem slashesToBackslashes_cons_of_ne (c : Char) (t : List Char) (h : c ≠ '/') :
    slashesToBackslashes (c :: t) = c :: slashesToBackslashes t := by
  rw [slashesToBackslashes_cons, if_neg h]

/-! Claim theorems. -/

/-- Claim C3, counterexample: an input whose segment after the mnt prefix
is not a single letter is not returned verbatim; convertToWindowsPath
transforms it, because its first branch tests only the five-character
prefix. -/
theorem c3_counterexample :
    convertToWindowsPath "/mnt/foo/bar".data = "F:oo\\bar".data ∧
    convertToWindowsPath "/mnt/foo/bar".data ≠ "/mnt/foo/bar".data :=
  ⟨by decide, by decide⟩

/-- Claim C3, amended: convertToWindowsPath returns its input unchanged
exactly when the input matches none of: (1) the bare five-character prefix
slash-m-n-t-slash (with no requirement on what follows), (2) slash, single
letter, slash, (3) letter, colon. -/
theorem c3_unmatched_passthrough (p : List Char)
    (h1 : mntPrefix.isPrefixOf p = false)
    (h2 : matchSlashLetterSlash p = false)
    (h3 : matchDriveRel p = false) :
    convertToWindowsPath p = p := by
  simp [convertToWindowsPath, h1, h2, h3]

/-- Claim C3, witness for the amended theorem at a concrete input. -/
theorem c3_witness : convertToWindowsPath "/usr/share/x".data = "/usr/share/x".data :=
  c3_unmatched_passthrough "/usr/share/x".data (by decide) (by decide) (by decide)

/-- Claim C4, counterexample: an input with a quote on only one side does
not keep that quote; the first stage of normalizePath strips it, and so
does the whole pipeline. -/
theorem c4_counterexample :
    stripOuter "\"abc".data = "abc".data ∧
    normalizePath "\"abc".data = "abc".data ∧
    "abc".data ≠ "\"abc".data :=
  ⟨by decide, by decide, by decide⟩

/-- Claim C4, amended: in normalizePath's first stage a leading quote is
stripped whenever present and a trailing quote is stripped whenever
present, each independently of the other; both sides need not be
quoted. -/
theorem c4_quote_strip_each_side :
    (∀ (q : Char) (t : List Char), isQuoteChar q = true → lastIsQuote t = false →
      stripQuotes (q :: t) = t) ∧
    (∀ (q : Char) (t : List Char), isQuoteChar q = true → headIsQuote t = false →
      stripQuotes (t ++ [q]) = t) := by
  constructor
  · intro q t hq hl
    unfold stripQuotes
    show stripTrailQuote (if isQuoteChar q = true then t else q :: t) = t
    rw [if_pos hq]
    unfold stripTrailQuote
    unfold lastIsQuote at hl
    cases ht : t.getLast? with
    | none => rfl
    | some c =>
      rw [ht] at hl
      simp only at hl
      show (if isQuoteChar c = true then t.dropLast else t) = t
      rw [if_neg (by rw [hl]; exact Bool.false_ne_true)]
  · intro q t hq hh
    cases t with
    | nil =>
      unfold stripQuotes
      simp only [List.nil_append]
      show stripTrailQuote (if isQuoteChar q = true then [] else [q]) = []
      rw [if_pos hq]
      rfl
    | cons c t2 =>
      unfold headIsQuote at hh
      simp only [List.head?_cons] at hh
      unfold stripQuotes
      simp only [List.cons_append]
      show stripTrailQuote (if isQuoteChar c = true then t2 ++ [q] else c :: (t2 ++ [q])) = c :: t2
      rw [if_neg (by rw [hh]; exact Bool.false_ne_true)]
      unfold stripTrailQuote
      rw [← List.cons_append, List.getLast?_concat]
      show (if isQuoteChar q = true then ((c :: t2) ++ [q]).dropLast else (c :: t2) ++ [q]) = c :: t2
      rw [if_pos hq, List.dropLast_concat]

/-- Claim C4, witness for the amended theorem: a leading-only quote is
stripped. -/
theorem c4_witness : stripQuotes ('"' :: "abc".data) = "abc".data :=
  c4_quote_strip_each_side.1 '"' "abc".data (by decide) (by decide)

/-- Claim C6: convertToWindowsPath turns a WSL mount path into an
upper-cased drive path with backslashes, and likewise for a
single-letter Unix-style drive path; the spec's two examples evaluate as
stated. -/
theorem c6_wsl_and_unix_drive :
    (∀ (c : Char) (rest : List Char),
      convertToWindowsPath (mntPrefix ++ c :: '/' :: rest) =
        asciiUpper c :: ':' :: '\\' :: slashesToBackslashes rest) ∧
    (∀ (c : Char) (rest : List Char), isAsciiLetter c = true →
      convertToWindowsPath ('/' :: c :: '/' :: rest) =
        asciiUpper c :: ':' :: '\\' :: slashesToBackslashes rest) ∧
    convertToWindowsPath "/mnt/c/Users/x".data = "C:\\Users\\x".data ∧
    convertToWindowsPath "/d/foo/bar".data = "D:\\foo\\bar".data := by
  refine ⟨?_, ?_, by decide, by decide⟩
  · intro c rest
    have hpre : mntPrefix.isPrefixOf (mntPrefix ++ c :: '/' :: rest) = true := by
      simp [List.isPrefixOf_iff_prefix]
    unfold convertToWindowsPath
    rw [hpre]
    simp only [if_true]
    have hdrop : (mntPrefix ++ c :: '/' :: rest).drop 5 = c :: '/' :: rest := rfl
    rw [hdrop]
    simp [slashesToBackslashes]
  · intro c rest hc
    have hpre : mntPrefix.isPrefixOf ('/' :: c :: '/' :: rest) = false := by
      simp [List.isPrefixOf]
    have hsls : matchSlashLetterSlash ('/' :: c :: '/' :: rest) = true := by
      simp [matchSlashLetterSlash, hc]
    unfold convertToWindowsPath
    rw [hpre, hsls]
    simp [slashesToBackslashes]

/-- Claim C6, witness at the spec's WSL example. -/
theorem c6_witness :
    convertToWindowsPath ('/' :: 'd' :: '/' :: "foo/bar".data) =
      asciiUpper 'd' :: ':' :: '\\' :: slashesToBackslashes "foo/bar".data :=
  c6_wsl_and_unix_drive.2.1 'd' "foo/bar".data (by decide)

/-- Claim C7: on an input already in drive form, convertToWindowsPath only
converts slash direction and keeps the drive letter's case, while
normalizePath upper-cases a lower-case drive letter, as on the spec's
example. -/
theorem c7_drive_case_preserved :
    (∀ (c : Char) (rest : List Char), isAsciiLetter c = true →
      convertToWindowsPath (c :: ':' :: rest) = c :: ':' :: slashesToBackslashes rest) ∧
    convertToWindowsPath "c:/foo".data = "c:\\foo".data ∧
    normalizePath "c:/foo".data = "C:\\foo".data := by
  refine ⟨?_, by decide, by decide⟩
  intro c rest hc
  have hpre : mntPrefix.isPrefixOf (c :: ':' :: rest) = false := by
    simp [List.isPrefixOf]
  have hsls : matchSlashLetterSlash (c :: ':' :: rest) = false :=
    matchSLS_false_of_second c ':' rest (by decide)
  have hdr : matchDriveRel (c :: ':' :: rest) = true := by
    simp [matchDriveRel, hc]
  unfold convertToWindowsPath
  rw [hpre, hsls, hdr]
  simp only [Bool.false_eq_true, if_false, if_true]
  rw [slashesToBackslashes_cons_of_ne c _ (isAsciiLetter_ne_slash c hc)]
  rw [slashesToBackslashes_cons_of_ne ':' _ (by decide)]

/-- Claim C7, witness for the universal part at the spec's example. -/
theorem c7_witness :
    convertToWindowsPath ('c' :: ':' :: "/foo".data) = 'c' :: ':' :: slashesToBackslashes "/foo".data :=
  c7_drive_case_preserved.1 'c' "/foo".data (by decide)

/-- Claim C8: fileUriToPath never propagates a failure; an input without
the file scheme is returned unchanged, a parse or component-decode failure
falls back to stripping the scheme prefix and percent-decoding, and when
that decode also fails the original input is returned verbatim, for every
behaviour of the injected URL parser and either platform. -/
theorem c8_fileUri_never_raises :
    ∀ (parse : List Char → Option (List Char)) (w : Bool) (uri : List Char),
      (filePrefix.isPrefixOf uri = false → fileUriToPath parse w uri = uri) ∧
      (∀ d, filePrefix.isPrefixOf uri = true → parse uri = none →
        decodeURIComponentM (stripFileSchemeSlashes uri) = some d →
        fileUriToPath parse w uri = d) ∧
      (filePrefix.isPrefixOf uri = true → parse uri = none →
        decodeURIComponentM (stripFileSchemeSlashes uri) = none →
        fileUriToPath parse w uri = uri) ∧
      (∀ pn, filePrefix.isPrefixOf uri = true → parse uri = some pn →
        decodeURIComponentM pn = none →
        decodeURIComponentM (stripFileSchemeSlashes uri) = none →
        fileUriToPath parse w uri = uri) := by
  intro parse w uri
  refine ⟨?_, ?_, ?_, ?_⟩
  · intro h
    simp [fileUriToPath, h]
  · intro d h hp hd
    simp [fileUriToPath, h, hp, fileUriFallback, hd]
  · intro h hp hd
    simp [fileUriToPath, h, hp, fileUriFallback, hd]
  · intro pn h hp hdn hd
    simp [fileUriToPath, h, hp, hdn, fileUriFallback, hd]

/-- Claim C8, witness: a malformed percent escape after the scheme defeats
both the parser and the fallback decode, and the input comes back
verbatim. -/
theorem c8_witness :
    fileUriToPath (fun _ => none) true "file://%zz".data = "file://%zz".data :=
  (c8_fileUri_never_raises (fun _ => none) true "file://%zz".data).2.2.1
    (by decide) rfl (by decide)

/-- Claim C9: decodePossibleFileUri percent-decodes a scheme-less input
containing a percent escape, returns the input unchanged when that decode
fails or when no percent escape occurs, and evaluates the spec's example
as stated, for every behaviour of the injected URL parser. -/
theorem c9_decode_possible_uri :
    ∀ (parse : List Char → Option (List Char)) (w : Bool) (p : List Char),
      (∀ d, filePrefix.isPrefixOf p = false → hasPctSeq p = true →
        decodeURIComponentM p = some d → decodePossibleFileUri parse w p = d) ∧
      (filePrefix.isPrefixOf p = false → hasPctSeq p = true →
        decodeURIComponentM p = none → decodePossibleFileUri parse w p = p) ∧
      (filePrefix.isPrefixOf p = false → hasPctSeq p = false →
        decodePossibleFileUri parse w p = p) ∧
      decodePossibleFileUri parse w "%2Fhome%2Fuser".data = "/home/user".data := by
  intro parse w p
  refine ⟨?_, ?_, ?_, ?_⟩
  · intro d h hq hd
    simp [decodePossibleFileUri, h, hq, hd]
  · intro h hq hd
    simp [decodePossibleFileUri, h, hq, hd]
  · intro h hq
    simp [decodePossibleFileUri, h, hq]
  · simp [decodePossibleFileUri,
      show filePrefix.isPrefixOf "%2Fhome%2Fuser".data = false from by decide,
      show hasPctSeq "%2Fhome%2Fuser".data = true from by decide,
      show decodeURIComponentM "%2Fhome%2Fuser".data = some "/home/user".data from by decide]

/-- Claim C9, witness: a decodable percent-encoded input without a scheme
is decoded. -/
theorem c9_witness :
    decodePossibleFileUri (fun _ => none) true "a%20b".data = "a b".data :=
  (c9_decode_possible_uri (fun _ => none) true "a%20b".data).1
    "a b".data (by decide) (by decide) (by decide)

/-- Claim C2, counterexample: the bare slash input is reduced to the empty
string, not kept as a slash, because the trailing-slash strip of the Unix
branch also erases the only slash. -/
theorem c2_counterexample :
    normalizePath "/".data = "".data ∧ "".data ≠ "/".data :=
  ⟨by decide, by decide⟩

/-- Claim C2, amended: on every input classified as a Unix path the result
is the input with slash runs collapsed and every trailing slash removed;
this sends the bare slash to the empty string (the spec's other Unix
instance evaluates as stated). -/
theorem c2_unix_collapse_strip :
    (∀ s, isUnixPath (stripOuter s) = true →
      normalizePath s = stripTrailingSlashes (collapseSlashes (stripOuter s))) ∧
    normalizePath "/usr/local//bin/".data = "/usr/local/bin".data ∧
    normalizePath "/".data = [] := by
  refine ⟨?_, by decide, by decide⟩
  intro s h
  simp [normalizePath, h]

/-- Claim C2, witness for the universal part. -/
theorem c2_witness :
    normalizePath "/home//x/".data =
      stripTrailingSlashes (collapseSlashes (stripOuter "/home//x/".data)) :=
  c2_unix_collapse_strip.1 "/home//x/".data (by decide)

theorem asciiUpper_ne_slash (c : Char) (h1 : 'a' ≤ c) (h2 : c ≤ 'z') :
    asciiUpper c ≠ '/' := by
  have hn1 : ('a' : Char).toNat ≤ c.toNat := h1
  have hn2 : c.toNat ≤ ('z' : Char).toNat := h2
  have ha : ('a' : Char).toNat = 97 := rfl
  have hz : ('z' : Char).toNat = 122 := rfl
  rw [ha] at hn1
  rw [hz] at hn2
  unfold asciiUpper
  rw [if_pos (by simp [h1, h2])]
  intro h
  have h3 : (Char.ofNat (c.toNat - 32)).toNat = ('/' : Char).toNat := congrArg Char.toNat h
  have hv : (c.toNat - 32).isValidChar := Or.inl (by omega)
  rw [Char.ofNat, dif_pos hv] at h3
  have h4 : (Char.ofNatAux (c.toNat - 32) hv).toNat = c.toNat - 32 := rfl
  rw [h4] at h3
  have h5 : ('/' : Char).toNat = 47 := rfl
  rw [h5] at h3
  omega

theorem slash_not_mem_stb (l : List Char) : '/' ∉ slashesToBackslashes l := by
  intro hm
  rw [slashesToBackslashes, List.mem_map] at hm
  obtain ⟨c, _, hc⟩ := hm
  by_cases h : c = '/'
  · rw [if_pos h] at hc
    exact absurd hc (by decide)
  · rw [if_neg h] at hc
    exact h hc

theorem slash_not_mem_driveFinish (l : List Char) : '/' ∉ driveFinish l := by
  have hstb : '/' ∉ slashesToBackslashes l := slash_not_mem_stb l
  unfold driveFinish
  by_cases h1 : matchDriveRel l = true
  · rw [if_pos h1]
    by_cases h2 : matchLowerDrive (slashesToBackslashes l) = true
    · rw [if_pos h2]
      cases heq : slashesToBackslashes l with
      | nil =>
        rw [heq] at h2
        simp [matchLowerDrive] at h2
      | cons c rest =>
        rw [heq] at h2 hstb
        show '/' ∉ asciiUpper c :: rest
        cases rest with
        | nil => simp [matchLowerDrive] at h2
        | cons c1 r =>
          simp only [matchLowerDrive, Bool.and_eq_true, decide_eq_true_eq] at h2
          intro hmem
          rcases List.mem_cons.mp hmem with hhead | htail
          · exact asciiUpper_ne_slash c h2.1.1 h2.1.2 hhead.symm
          · exact hstb (List.mem_cons_of_mem c htail)
    · rw [if_neg h2]
      exact hstb
  · rw [if_neg h1]
    exact hstb

/-- Claim C10: whenever the trimmed, unquoted input is not classified as a
Unix path, the normalizePath result contains no forward slash; both the
drive branch and the final catch-all branch replace every slash by a
backslash. -/
theorem c10_no_forward_slash (s : List Char)
    (h : isUnixPath (stripOuter s) = false) :
    '/' ∉ normalizePath s := by
  simp only [normalizePath, h, Bool.false_eq_true, if_false]
  exact slash_not_mem_driveFinish _

/-- Claim C10, witness at a drive-letter input. -/
theorem c10_witness : '/' ∉ normalizePath "C:/a/b".data :=
  c10_no_forward_slash "C:/a/b".data (by decide)

theorem segsAux_chunks (l : List Char) (cur : List Char)
    (hcur : ∀ c ∈ cur, isPathSep c = false) :
    ∀ x ∈ segsAux l cur, ∀ c ∈ x, isPathSep c = false := by
  induction l generalizing cur with
  | nil =>
    intro x hx c hc
    simp only [segsAux, List.mem_singleton] at hx
    subst hx
    exact hcur c (by simpa using hc)
  | cons a rest ih =>
    intro x hx c hc
    by_cases ha : isPathSep a = true
    · rw [show segsAux (a :: rest) cur = cur.reverse :: segsAux rest [] from by
        simp [segsAux, ha]] at hx
      rcases List.mem_cons.mp hx with h1 | h2
      · subst h1
        exact hcur c (by simpa using hc)
      · exact ih [] (by simp) x h2 c hc
    · rw [show segsAux (a :: rest) cur = segsAux rest (a :: cur) from by
        simp [segsAux, ha]] at hx
      refine ih (a :: cur) ?_ x hx c hc
      intro c2 hc2
      rcases List.mem_cons.mp hc2 with h1 | h2
      · subst h1
        simpa using ha
      · exact hcur c2 h2

theorem stepSeg_good (allow : Bool) (st : List (List Char)) (seg : List Char)
    (hst : ∀ s ∈ st, s ≠ [] ∧ ∀ c ∈ s, isPathSep c = false)
    (hseg : ∀ c ∈ seg, isPathSep c = false) :
    ∀ s ∈ stepSeg allow st seg, s ≠ [] ∧ ∀ c ∈ s, isPathSep c = false := by
  have hdd : dotdot ≠ [] ∧ ∀ c ∈ dotdot, isPathSep c = false := by
    refine ⟨by decide, ?_⟩
    intro c hc
    simp only [dotdot, List.mem_cons, List.not_mem_nil, or_false] at hc
    rcases hc with h | h <;> (subst h; decide)
  unfold stepSeg
  by_cases h1 : (seg = [] || seg = ['.']) = true
  · rw [if_pos h1]
    exact hst
  · rw [if_neg h1]
    by_cases h2 : seg = dotdot
    · rw [if_pos h2]
      cases st with
      | nil =>
        by_cases h3 : allow = true
        · rw [h3, if_pos rfl]
          intro s hs
          rw [List.mem_singleton] at hs
          subst hs
          exact hdd
        · rw [Bool.not_eq_true] at h3
          rw [h3]
          intro s hs
          simp at hs
      | cons top rest =>
        show ∀ s ∈ (if top = dotdot then (if allow = true then dotdot :: top :: rest
            else top :: rest) else rest), s ≠ [] ∧ ∀ c ∈ s, isPathSep c = false
        by_cases h4 : top = dotdot
        · rw [if_pos h4]
          by_cases h3 : allow = true
          · rw [h3, if_pos rfl]
            intro s hs
            rcases List.mem_cons.mp hs with h5 | h5
            · subst h5; exact hdd
            · exact hst s h5
          · rw [Bool.not_eq_true] at h3
            rw [h3]
            intro s hs
            exact hst s hs
        · rw [if_neg h4]
          intro s hs
          exact hst s (List.mem_cons_of_mem top hs)
    · rw [if_neg h2]
      intro s hs
      rcases List.mem_cons.mp hs with h3 | h4
      · subst h3
        refine ⟨?_, hseg⟩
        simp only [Bool.or_eq_true, decide_eq_true_eq, not_or] at h1
        exact h1.1
      · exact hst s h4

theorem foldl_stepSeg_good (allow : Bool) (segs : List (List Char))
    (hsegs : ∀ x ∈ segs, ∀ c ∈ x, isPathSep c = false) :
    ∀ st, (∀ s ∈ st, s ≠ [] ∧ ∀ c ∈ s, isPathSep c = false) →
      ∀ s ∈ segs.foldl (stepSeg allow) st, s ≠ [] ∧ ∀ c ∈ s, isPathSep c = false := by
  induction segs with
  | nil =>
    intro st hst
    simpa using hst
  | cons x xs ih =>
    intro st hst
    simp only [List.foldl_cons]
    exact ih (fun y hy => hsegs y (List.mem_cons_of_mem x hy)) _
      (stepSeg_good allow st x hst (hsegs x (List.mem_cons_self x xs)))

theorem joinSegs_headNotSep (ss : List (List Char))
    (h : ∀ s ∈ ss, s ≠ [] ∧ ∀ c ∈ s, isPathSep c = false) :
    ∀ c, (joinSegs ss).head? = some c → isPathSep c = false := by
  cases ss with
  | nil =>
    intro c hc
    simp [joinSegs] at hc
  | cons s rest =>
    have hs := h s (List.mem_cons_self s rest)
    cases hss : s with
    | nil => exact absurd hss hs.1
    | cons a t =>
      intro c hc
      have hj : (joinSegs ((a :: t) :: rest)).head? = some a := by
        cases rest with
        | nil => rfl
        | cons r2 rs => rfl
      rw [hj, Option.some.injEq] at hc
      rw [← hc]
      exact hs.2 a (hss ▸ List.mem_cons_self a t)

theorem normalizeStringW_headNotSep (l : List Char) (allow : Bool) :
    ∀ c, (normalizeStringW l allow).head? = some c → isPathSep c = false := by
  unfold normalizeStringW
  apply joinSegs_headNotSep
  intro s hs
  rw [List.mem_reverse] at hs
  exact foldl_stepSeg_good allow (segments l) (segsAux_chunks l [] (by simp)) [] (by simp) s hs

theorem finTail1_abs (ar : List Char) : finTail1 true ar = normalizeStringW ar false := by
  simp [finTail1]

theorem finTail2_headNotSep_abs (ar : List Char) (ls : Bool) :
    ∀ c, (finTail2 true ar ls).head? = some c → isPathSep c = false := by
  intro c hc
  unfold finTail2 at hc
  rw [finTail1_abs] at hc
  by_cases hcond : (!(normalizeStringW ar false).isEmpty && ls) = true
  · rw [if_pos hcond, List.head?_append] at hc
    cases hf : (normalizeStringW ar false).head? with
    | none =>
      rw [Bool.and_eq_true, Bool.not_eq_true'] at hcond
      rw [List.head?_eq_none_iff.mp hf] at hcond
      simp at hcond
    | some a =>
      rw [hf] at hc
      have : a = c := by
        have : (some a).or ['\\'].head? = some a := rfl
        rw [this, Option.some.injEq] at hc
        exact hc
      subst this
      exact normalizeStringW_headNotSep ar false a hf
  · rw [if_neg hcond] at hc
    exact normalizeStringW_headNotSep ar false c hc

theorem finishW_none_abs (ar : List Char) (ls : Bool) :
    finishW none true ar ls = '\\' :: finTail2 true ar ls := rfl

theorem win32Normalize_twoSep (c0 c1 : Char) (v : List Char)
    (h0 : isPathSep c0 = true) (h1 : isPathSep c1 = true) :
    ∃ w, (∀ c, w.head? = some c → isPathSep c = false) ∧
      (win32Normalize (c0 :: c1 :: v) = '\\' :: '\\' :: w ∨
       win32Normalize (c0 :: c1 :: v) = '\\' :: w) := by
  have huncFirst : ∀ (hne : (uncFirst v).isEmpty = false) (c : Char),
      (uncFirst v).head? = some c → isPathSep c = false := by
    intro hne c hc
    cases hu : uncFirst v with
    | nil => rw [hu] at hne; simp at hne
    | cons a t =>
      rw [hu, List.head?_cons, Option.some.injEq] at hc
      have hmem : a ∈ List.takeWhile notSep v := by
        rw [show List.takeWhile notSep v = uncFirst v from rfl, hu]
        exact List.mem_cons_self a t
      have h6 := List.mem_takeWhile_imp hmem
      rw [← hc]
      simpa [notSep] using h6
  simp only [win32Normalize]
  rw [if_pos h0, if_pos h1]
  by_cases ha : ((uncFirst v).isEmpty || (uncAfterFirst v).isEmpty) = true
  · rw [if_pos ha]
    exact ⟨finTail2 true (c0 :: c1 :: v) (lastCharIsSep (c0 :: c1 :: v)),
      finTail2_headNotSep_abs _ _, Or.inr (finishW_none_abs _ _)⟩
  · rw [if_neg ha]
    rw [Bool.or_eq_true, not_or] at ha
    have hne1 : (uncFirst v).isEmpty = false := by
      rw [← Bool.not_eq_true]
      exact ha.1
    by_cases hb : (uncR2 v).isEmpty = true
    · rw [if_pos hb]
      exact ⟨finTail2 true (c0 :: c1 :: v) (lastCharIsSep (c0 :: c1 :: v)),
        finTail2_headNotSep_abs _ _, Or.inr (finishW_none_abs _ _)⟩
    · rw [if_neg hb]
      by_cases hcx : (uncR3 v).isEmpty = true
      · rw [if_pos hcx]
        refine ⟨uncFirst v ++ '\\' :: (uncSecond v ++ ['\\']), ?_, Or.inl rfl⟩
        intro c hc
        rw [List.head?_append] at hc
        cases hf : (uncFirst v).head? with
        | none =>
          rw [List.head?_eq_none_iff.mp hf] at hne1
          simp at hne1
        | some a =>
          rw [hf] at hc
          have : a = c := by
            have h5 : (some a).or ('\\' :: (uncSecond v ++ ['\\'])).head? = some a := rfl
            rw [h5, Option.some.injEq] at hc
            exact hc
          subst this
          exact huncFirst hne1 a hf
      · rw [if_neg hcx]
        refine ⟨(uncFirst v ++ '\\' :: uncSecond v) ++
          '\\' :: finTail2 true (uncR3 v) (lastCharIsSep (c0 :: c1 :: v)), ?_, Or.inl ?_⟩
        · intro c hc
          rw [List.head?_append, List.head?_append] at hc
          cases hf : (uncFirst v).head? with
          | none =>
            rw [List.head?_eq_none_iff.mp hf] at hne1
            simp at hne1
          | some a =>
            rw [hf] at hc
            have : a = c := by
              have h5 : ((some a).or ('\\' :: uncSecond v).head?).or
                  ('\\' :: finTail2 true (uncR3 v) (lastCharIsSep (c0 :: c1 :: v))).head? =
                  some a := rfl
              rw [h5, Option.some.injEq] at hc
              exact hc
            subst this
            exact huncFirst hne1 a hf
        · show finishW (some ('\\' :: '\\' :: (uncFirst v ++ '\\' :: uncSecond v))) true
            (uncR3 v) (lastCharIsSep (c0 :: c1 :: v)) = _
          unfold finishW
          simp [List.cons_append, List.append_assoc]

theorem matchSLS_false_of_first (c : Char) (t : List Char) (h : c ≠ '/') :
    matchSlashLetterSlash (c :: t) = false := by
  cases t with
  | nil => rfl
  | cons b r =>
    cases r with
    | nil => rfl
    | cons d rr => simp [matchSlashLetterSlash, h]

theorem matchDriveRel_false_of_first (c : Char) (t : List Char)
    (h : isAsciiLetter c = false) : matchDriveRel (c :: t) = false := by
  cases t with
  | nil => rfl
  | cons b r => simp [matchDriveRel, h]

theorem isUnixPath_false_of_head (c : Char) (t : List Char) (h : c ≠ '/') :
    isUnixPath (c :: t) = false := by
  simp [isUnixPath, h]

theorem convert_id_of_backslash (t : List Char) :
    convertToWindowsPath ('\\' :: t) = '\\' :: t := by
  have h1 : mntPrefix.isPrefixOf ('\\' :: t) = false := by
    simp [List.isPrefixOf, mntPrefix]
  have h2 := matchSLS_false_of_first '\\' t (by decide)
  have h3 := matchDriveRel_false_of_first '\\' t (by decide)
  simp [convertToWindowsPath, h1, h2, h3]

theorem twoBS_shape (l : List Char) (h : twoBS l = true) :
    ∃ u, l = '\\' :: '\\' :: u := by
  cases l with
  | nil => simp [twoBS] at h
  | cons c0 t =>
    cases t with
    | nil => simp [twoBS] at h
    | cons c1 u =>
      simp only [twoBS, Bool.and_eq_true, decide_eq_true_eq] at h
      exact ⟨u, by rw [h.1, h.2]⟩

theorem twoBS_cons2 (w : List Char) : twoBS ('\\' :: '\\' :: w) = true := by
  simp [twoBS]

theorem twoBS_single_backslash (w : List Char)
    (hw : ∀ c, w.head? = some c → isPathSep c = false) :
    twoBS ('\\' :: w) = false := by
  cases w with
  | nil => rfl
  | cons c w2 =>
    have hps := hw c rfl
    have hne : c ≠ '\\' := by
      intro he
      rw [he] at hps
      exact absurd hps (by decide)
    simp [twoBS, hne]

theorem stb_cons_backslash (t : List Char) :
    slashesToBackslashes ('\\' :: t) = '\\' :: slashesToBackslashes t :=
  slashesToBackslashes_cons_of_ne '\\' t (by decide)

theorem leadingBSCount_two (w : List Char)
    (hw : ∀ c, w.head? = some c → isPathSep c = false) :
    leadingBSCount ('\\' :: '\\' :: slashesToBackslashes w) = 2 := by
  unfold leadingBSCount
  cases w with
  | nil => rfl
  | cons c w2 =>
    have hps := hw c rfl
    have hslash : c ≠ '/' := by
      intro he
      rw [he] at hps
      exact absurd hps (by decide)
    have hbs : c ≠ '\\' := by
      intro he
      rw [he] at hps
      exact absurd hps (by decide)
    rw [show slashesToBackslashes (c :: w2) = c :: slashesToBackslashes w2 from
      slashesToBackslashes_cons_of_ne c w2 hslash]
    simp [List.takeWhile_cons, hbs]

/-- Claim C5, counterexample: on the win32 platform Node's normalize
appends a trailing backslash to a bare UNC root, so the claim's
six-backslash input yields a result with a trailing backslash, not the
claimed value. -/
theorem c5_counterexample :
    normalizePath "\\\\\\\\\\\\server\\share".data = "\\\\server\\share\\".data ∧
    normalizePath "\\\\\\\\\\\\server\\share".data ≠ "\\\\server\\share".data :=
  ⟨by decide, by decide⟩

/-- Claim C5, amended: for every input whose trimmed, unquoted form starts
with two or more backslashes (which covers runs of 2 to 5, and any
longer run), the normalizePath result has exactly two leading
backslashes; the leading run is reduced to two and doubled backslashes are
collapsed only in the remainder, but a bare UNC root additionally receives
a trailing backslash from the platform normalization, as the corrected
evaluation of the claim's example shows. -/
theorem c5_unc_two_leading :
    (∀ s, twoBS (stripOuter s) = true → leadingBSCount (normalizePath s) = 2) ∧
    normalizePath "\\\\\\\\\\\\server\\share".data = "\\\\server\\share\\".data := by
  refine ⟨?_, by decide⟩
  intro s h
  obtain ⟨u, hu⟩ := twoBS_shape _ h
  have hunix : isUnixPath (stripOuter s) = false := by
    rw [hu]
    exact isUnixPath_false_of_head '\\' _ (by decide)
  have hnp : normalizePath s = normalizePathWin (convertToWindowsPath (stripOuter s)) := by
    simp [normalizePath, hunix]
  rw [hnp, hu, convert_id_of_backslash]
  have hcol : uncCollapse ('\\' :: '\\' :: u) =
      '\\' :: '\\' :: collapseDoubleBS (('\\' :: '\\' :: u).dropWhile (fun c => c = '\\')) := by
    simp [uncCollapse, twoBS_cons2]
  unfold normalizePathWin
  rw [hcol]
  obtain ⟨w, hw, hcase⟩ := win32Normalize_twoSep '\\' '\\'
    (collapseDoubleBS (('\\' :: '\\' :: u).dropWhile (fun c => c = '\\'))) (by decide) (by decide)
  have hn1 : fixUNC
      ('\\' :: '\\' :: collapseDoubleBS (('\\' :: '\\' :: u).dropWhile (fun c => c = '\\')))
      (win32Normalize
        ('\\' :: '\\' :: collapseDoubleBS (('\\' :: '\\' :: u).dropWhile (fun c => c = '\\')))) =
      '\\' :: '\\' :: w := by
    rcases hcase with hceq | hceq
    · rw [hceq]
      unfold fixUNC
      rw [twoBS_cons2, twoBS_cons2]
      simp
    · rw [hceq]
      unfold fixUNC
      rw [twoBS_cons2, twoBS_single_backslash w hw]
      simp
  rw [hn1]
  have hdr : matchDriveRel ('\\' :: '\\' :: w) = false :=
    matchDriveRel_false_of_first '\\' _ (by decide)
  have hdf : driveFinish ('\\' :: '\\' :: w) = slashesToBackslashes ('\\' :: '\\' :: w) := by
    simp [driveFinish, hdr]
  rw [hdf, stb_cons_backslash, stb_cons_backslash]
  exact leadingBSCount_two w hw

/-- Claim C5, witness for the universal part at the claim's six-backslash
input. -/
theorem c5_witness :
    leadingBSCount (normalizePath "\\\\\\\\\\\\server\\share".data) = 2 :=
  c5_unc_two_leading.1 "\\\\\\\\\\\\server\\share".data (by decide)

/-- Claim C1, counterexample: normalizePath is not idempotent.  Three
failures: the bare slash normalizes to the empty string whose second pass
gives a dot; a Unix path whose collapsed form becomes a WSL-mount pattern
is reclassified as a drive path on the second pass; a quote-wrapped Unix
path can keep an inner trailing space that only the second pass trims. -/
theorem c1_counterexample :
    (normalizePath (normalizePath "/".data) = ".".data ∧
      normalizePath "/".data = [] ∧
      normalizePath (normalizePath "/".data) ≠ normalizePath "/".data) ∧
    (normalizePath "/mnt//c/foo".data = "/mnt/c/foo".data ∧
      normalizePath (normalizePath "/mnt//c/foo".data) = "C:\\foo".data ∧
      normalizePath (normalizePath "/mnt//c/foo".data) ≠ normalizePath "/mnt//c/foo".data) ∧
    (normalizePath "\"/a \"".data = "/a ".data ∧
      normalizePath (normalizePath "\"/a \"".data) = "/a".data ∧
      normalizePath (normalizePath "\"/a \"".data) ≠ normalizePath "\"/a \"".data) :=
  ⟨⟨by decide, by decide, by decide⟩, ⟨by decide, by decide, by decide⟩,
    ⟨by decide, by decide, by decide⟩⟩

/-- Claim C1, amended: normalizePath is idempotent on every input whose
trimmed, unquoted form is classified as a Unix path and whose Unix
normalization (slash runs collapsed, trailing slashes stripped) is still
classified as a Unix path and ends in neither whitespace nor a quote
character.  The counterexamples above show each of these conditions is
needed; idempotence does not hold unconditionally. -/
theorem c1_idempotent_on_stable_unix (s : List Char)
    (h1 : isUnixPath (stripOuter s) = true)
    (h2 : isUnixPath (stripTrailingSlashes (collapseSlashes (stripOuter s))) = true)
    (h3 : lastIsJsWs (stripTrailingSlashes (collapseSlashes (stripOuter s))) = false)
    (h4 : lastIsQuote (stripTrailingSlashes (collapseSlashes (stripOuter s))) = false) :
    normalizePath (normalizePath s) = normalizePath s := by
  have hs : normalizePath s = stripTrailingSlashes (collapseSlashes (stripOuter s)) := by
    simp [normalizePath, h1]
  rw [hs]
  obtain ⟨t, hyt⟩ := unixPath_head _ h2
  have hso : stripOuter (stripTrailingSlashes (collapseSlashes (stripOuter s))) =
      stripTrailingSlashes (collapseSlashes (stripOuter s)) := by
    rw [hyt] at h3 h4 ⊢
    exact stripOuter_eq_self_slash t h3 h4
  have hnoDS : noDS (stripTrailingSlashes (collapseSlashes (stripOuter s))) = true := by
    obtain ⟨w, hw⟩ := stripTrailing_decomp (collapseSlashes (stripOuter s))
    apply noDS_append_left _ w
    rw [← hw]
    exact collapse_noDS (stripOuter s)
  have hcy := collapse_eq_self_of_noDS _ hnoDS
  simp only [normalizePath, hso, h2, if_true, hcy, stripTrailing_idem]

/-- Claim C1, witness for the amended theorem at a collapsible Unix
path. -/
theorem c1_witness :
    normalizePath (normalizePath "/usr//local/".data) = normalizePath "/usr//local/".data :=
  c1_idempotent_on_stable_unix "/usr//local/".data (by decide) (by decide) (by decide) (by decide)

end PathUtils
